import Mathlib

/-!
# Verification of the knative-continuous-delivery rollout core

Shallow embedding of the rollout scheduler's pure core:

* `Policy`/`Stage` and the policy evaluator (`computeNewPercentExplicit`,
  `metricTillNextStage`) from `pkg/reconciler/delivery/policy.go`;
* the traffic planner `modifyRouteSpec` and the follow-up computation
  `timeTillNextEvent` from `pkg/reconciler/delivery` (the final versions
  that take a revision map, a policy and a clock);
* the policy validator `Validate` from
  `pkg/apis/delivery/v1alpha1/policy_validation.go`.

Conventions of the embedding:

* Go `time.Duration` / `time.Time` values are modelled as `Int` nanoseconds
  (Go stores durations as int64 nanoseconds).  The source converts a duration
  to seconds as `float64(elapsed) / float64(time.Second)` and compares it with
  integer cumulative thresholds; we compare exactly, clearing the denominator:
  `float64(cum) > metric` becomes `cum * 1000000000 > elapsedNs`.
* Go maps `map[string]*v1.Revision` are modelled as association lists of
  `Revision` values keyed by their `name` field (that is how `fetchRevisions`
  builds the map: the key always equals the revision's own name, hence Go
  pointer equality between two values of the same map coincides with name
  equality).
* nil-able Go pointer fields (`*bool`, `*int64`) are `Option`s; the zero
  `v1.TrafficTarget` value that Go's `make([]v1.TrafficTarget, ln)` creates
  has both pointers nil, i.e. `none`.
* fallible functions return `Except String`.
-/

/-- One rollout stage (`Stage` in policy.go): a traffic percent and an
optional per-stage threshold. -/
structure Stage where
  percent : Int
  threshold : Option Int
  deriving Repr, DecidableEq

/-- Rollout policy (`Policy` in policy.go). -/
structure Policy where
  mode : String
  stages : List Stage
  defaultThreshold : Int
  deriving Repr, DecidableEq

/-- `s.Threshold` if non-nil, else `p.DefaultThreshold` (the `extra`
computation inside the evaluator loops). -/
def stageThreshold (p : Policy) (s : Stage) : Int :=
  match s.threshold with
  | some t => t
  | none => p.defaultThreshold

/-- One nanosecond short of a second: the scaling factor between the `Int`
nanosecond representation of elapsed time and the integer thresholds. -/
def nsPerSecond : Int := 1000000000

/-- Loop body of `computeNewPercentExplicit`: walk the given stage list
(the source iterates `p.Stages[1:]`), accumulating `metricCumulative`,
and return the percent of the first stage whose cumulative threshold
strictly exceeds the elapsed metric; `100` when the walk finishes. -/
def cnpeLoop (p : Policy) (elapsedNs : Int) : Int → List Stage → Int
  | _, [] => 100
  | c, s :: rest =>
    if (c + stageThreshold p s) * nsPerSecond > elapsedNs then s.percent
    else cnpeLoop p elapsedNs (c + stageThreshold p s) rest

/-- `computeNewPercentExplicit` (policy.go): the percent the new revision is
entitled to, given the policy and the elapsed time (nanoseconds) since the
revision's creation. -/
def computeNewPercentExplicit (p : Policy) (elapsedNs : Int) : Int :=
  if p.stages = [] then 100
  else cnpeLoop p elapsedNs 0 p.stages.tail

/-- `math.MaxInt32`, the "never schedule" sentinel. -/
def maxInt32 : Int := 2147483647

/-- `nextBiggerInt` (policy.go) computes the next strictly bigger int of the
positive float `metricCumulative - metric`; with the elapsed time scaled to
nanoseconds the float is `numeratorNs / 1e9 > 0`, whose Go truncation `int(f)`
is the floor, hence `fdiv` (floor division). -/
def nextBiggerInt (numeratorNs : Int) : Int :=
  numeratorNs.fdiv nsPerSecond + 1

/-- Loop body of `metricTillNextStage`: same walk as `cnpeLoop`, returning
the (strictly rounded-up) seconds till the first uncrossed cumulative
threshold, or `maxInt32` when the walk finishes. -/
def mtnsLoop (p : Policy) (elapsedNs : Int) : Int → List Stage → Int
  | _, [] => maxInt32
  | c, s :: rest =>
    if (c + stageThreshold p s) * nsPerSecond > elapsedNs then
      nextBiggerInt ((c + stageThreshold p s) * nsPerSecond - elapsedNs)
    else mtnsLoop p elapsedNs (c + stageThreshold p s) rest

/-- `metricTillNextStage` (policy.go): how many full seconds to wait before
the next stage boundary; strictly bigger than the exact remainder. -/
def metricTillNextStage (p : Policy) (elapsedNs : Int) : Int :=
  if p.stages = [] then maxInt32
  else mtnsLoop p elapsedNs 0 p.stages.tail

/-- Cumulative threshold `cum_k` of the claims: the sum of the per-stage
thresholds of `stages[1..k]` (the first `k` elements of `stages.tail`). -/
def cumThreshold (p : Policy) (k : Nat) : Int :=
  ((p.stages.tail.take k).map (stageThreshold p)).sum

/-- A revision (the fields of `v1.Revision` the core reads: its name, its
creation timestamp, and `OwnerReferences[0].Name`, the owning
configuration). Creation time in nanoseconds. -/
structure Revision where
  name : String
  creationTimestamp : Int
  ownerName : String
  deriving Repr, DecidableEq

/-- The revision map `map[string]*v1.Revision`, as an association list keyed
by `Revision.name`; `lookupRev` is the map query `r[name]`. -/
def lookupRev (r : List Revision) (name : String) : Option Revision :=
  r.find? (fun rev => rev.name == name)

/-- `oldestRevision` (delivery.go): fold over the map keeping the first
strictly-earliest creation timestamp; `none` on the empty map (Go: nil). -/
def oldestRevision (r : List Revision) : Option Revision :=
  r.foldl
    (fun acc rev =>
      match acc with
      | none => some rev
      | some best =>
        if rev.creationTimestamp < best.creationTimestamp then some rev else acc)
    none

/-- One entry of a traffic plan (`v1.TrafficTarget`): pointers modelled as
`Option`s, so the zero value has `none` in both pointer fields. -/
structure TrafficTarget where
  revisionName : String
  configurationName : String
  latestRevision : Option Bool
  percent : Option Int
  deriving Repr, DecidableEq

/-- The zero `v1.TrafficTarget` produced by `make([]v1.TrafficTarget, ln)`. -/
def zeroTarget : TrafficTarget :=
  { revisionName := "", configurationName := "", latestRevision := none, percent := none }

/-- The `v1.Route` fields the planner touches: its name, `Spec.Traffic` and
`Status.Traffic`. -/
structure Route where
  name : String
  spec : List TrafficTarget
  status : List TrafficTarget
  deriving Repr, DecidableEq

deriving instance DecidableEq for Except

/-- Sum of the `Percent` fields of a plan (nil percent counts as 0). -/
def sumPercents (l : List TrafficTarget) : Int :=
  (l.map (fun t => t.percent.getD 0)).sum

/-- The ordered roster of `modifyRouteSpec`: the status plan's revision
names, plus `newRevName` appended when not already listed. -/
def rosterOf (route : Route) (newRevName : String) : List String :=
  route.status.map (fun t => t.revisionName) ++
    (if route.status.any (fun t => t.revisionName == newRevName) then [] else [newRevName])

/-- The reverse walk of `modifyRouteSpec` (delivery_test.go, the final
planner): iterate the roster newest-to-oldest (the argument list is the
reversed roster).  On the globally oldest revision, assign the remainder and
stop — unassigned earlier indices are the zero targets the Go array keeps.
On saturation (`alreadyAssigned >= 100`), truncate to the assigned suffix. -/
def walkLoop (r : List Revision) (p : Policy) (nowNs : Int) (oldestName : Option String) :
    List String → Int → List TrafficTarget → Except String (List TrafficTarget)
  | [], _, acc => .ok acc
  | name :: rest, assigned, acc =>
    match lookupRev r name with
    | none => .error ("cannot find Revision " ++ name ++ " in indexer")
    | some rev =>
      if oldestName = some rev.name then
        .ok (List.replicate rest.length zeroTarget ++
          ({ revisionName := name, configurationName := "", latestRevision := some false,
             percent := some (100 - assigned) } : TrafficTarget) :: acc)
      else
        let want := computeNewPercentExplicit p (nowNs - rev.creationTimestamp)
        let actual := min want (100 - assigned)
        let t : TrafficTarget :=
          { revisionName := name, configurationName := "", latestRevision := some false,
            percent := some actual }
        if assigned + actual ≥ 100 then .ok (t :: acc)
        else walkLoop r p nowNs oldestName rest (assigned + actual) (t :: acc)

/-- `modifyRouteSpec` (delivery_test.go, final version): assign traffic to
all active revisions.  Fast path when the roster is a singleton; otherwise
the reverse walk, followed by the singleton collapse to the
`latestRevision=true` form. -/
def modifyRouteSpec (route : Route) (r : List Revision) (newRevName : String)
    (p : Policy) (nowNs : Int) : Except String Route :=
  let roster := rosterOf route newRevName
  if roster.length == 1 then
    match lookupRev r newRevName with
    | none => .error ("cannot find Revision " ++ newRevName ++ " in indexer")
    | some newRevision =>
      .ok { route with spec :=
        [{ revisionName := "", configurationName := newRevision.ownerName,
           latestRevision := some true, percent := some 100 }] }
  else
    match walkLoop r p nowNs ((oldestRevision r).map (fun x => x.name)) roster.reverse 0 [] with
    | .error msg => .error msg
    | .ok traffic =>
      let traffic :=
        if traffic.length == 1 then
          [{ revisionName := "", configurationName := route.name,
             latestRevision := some true, percent := some 100 }]
        else traffic
      .ok { route with spec := traffic }

/-- Loop of `timeTillNextEvent` (delivery.go): over the route's spec plan,
error on a missing revision, skip the globally oldest, otherwise take the
minimum of `metricTillNextStage`. -/
def ttneLoop (r : List Revision) (p : Policy) (nowNs : Int) (oldestName : Option String) :
    List TrafficTarget → Int → Except String Int
  | [], result => .ok result
  | t :: rest, result =>
    match lookupRev r t.revisionName with
    | none => .error ("cannot find Revision " ++ t.revisionName ++ " in indexer")
    | some rev =>
      if oldestName = some rev.name then ttneLoop r p nowNs oldestName rest result
      else
        ttneLoop r p nowNs oldestName rest
          (min (metricTillNextStage p (nowNs - rev.creationTimestamp)) result)

/-- `timeTillNextEvent` (delivery.go): seconds to wait before the next
reconciliation (the source multiplies by `time.Second` on return). -/
def timeTillNextEvent (route : Route) (r : List Revision) (p : Policy) (nowNs : Int) :
    Except String Int :=
  ttneLoop r p nowNs ((oldestRevision r).map (fun x => x.name)) route.spec maxInt32

/-- Scheduling decision of `applyChanges` (delivery.go): stable plans
(`latestRevision=true` head) enqueue nothing; otherwise the follow-up is
enqueued whenever `timeTillNextEvent` is non-zero.  `some d` = enqueue after
`d` seconds, `none` = no enqueue.  (Go dereferences the head's
`LatestRevision` pointer; claims only exercise plans with the pointer set,
the nil/empty case is modelled as `false`.) -/
def applyChangesFollowup (route : Route) (r : List Revision) (p : Policy) (nowNs : Int) :
    Except String (Option Int) :=
  if (route.spec.headD zeroTarget).latestRevision.getD false then .ok none
  else
    match timeTillNextEvent route r p nowNs with
    | .error msg => .error msg
    | .ok delay => .ok (if delay ≠ 0 then some delay else none)

/-- `apis.FieldError` values the validator emits. -/
inductive FieldError where
  | invalidValue (value : String) (field : String)
  | generic (message : String) (field : String)
  | outOfBounds (value lower upper : Int) (field : String)
  deriving Repr, DecidableEq

/-- Per-stage loop of `Validate` (policy_validation.go): emit the first
offending stage's error and stop (`break`); `prev` starts at 0. -/
def validateStages : List Stage → Int → List FieldError
  | [], _ => []
  | s :: rest, prev =>
    if s.percent < prev then
      [.generic "Rollout percentages must be in increasing order" "spec.stages"]
    else if s.percent < 0 ∨ s.percent ≥ 100 then
      [.outOfBounds s.percent 0 99 "spec.stages"]
    else if s.threshold.any (fun t => decide (t ≤ 0)) then
      [.generic "Optional threshold value must be a positive integer" "spec.stages"]
    else validateStages rest s.percent

/-- `Validate` (policy_validation.go): accumulated field errors; the policy
is rejected exactly when the list is nonempty (Go: non-nil `*FieldError`).
The empty-stages error short-circuits the per-stage loop. -/
def validatePolicy (p : Policy) : List FieldError :=
  let e1 : List FieldError :=
    if p.mode ≠ "time" then [.invalidValue p.mode "spec.mode"] else []
  let e2 : List FieldError :=
    if p.defaultThreshold ≤ 0 then
      [.generic "DefaultThreshold value is mandatory and must be a positive integer"
        "spec.defaultThreshold"]
    else []
  if p.stages.length < 1 then
    e1 ++ e2 ++ [.generic "There must be at least one rollout stage in a Policy" "spec.stages"]
  else
    e1 ++ e2 ++ validateStages p.stages 0

/-- A policy the admission validator accepts, strengthened to the spec's
data-model invariants: positive default threshold, stage percents
non-decreasing and within `[1,99]`, explicit thresholds positive. -/
def ValidPolicy (p : Policy) : Prop :=
  0 < p.defaultThreshold ∧
  p.stages.Pairwise (fun a b => a.percent ≤ b.percent) ∧
  (∀ s ∈ p.stages, 1 ≤ s.percent ∧ s.percent ≤ 99) ∧
  (∀ s ∈ p.stages, ∀ t, s.threshold = some t → 0 < t)

/-- There is a next stage boundary strictly beyond the elapsed time. -/
def HasNextStage (p : Policy) (elapsedNs : Int) : Prop :=
  ∃ k : Nat, k + 1 < p.stages.length ∧ cumThreshold p (k + 1) * nsPerSecond > elapsedNs

/-- Cumulative threshold of the first `k` entries of an arbitrary stage
list; `cumThreshold p k = cumList p p.stages.tail k`. -/
def cumList (p : Policy) (l : List Stage) (k : Nat) : Int :=
  ((l.take k).map (stageThreshold p)).sum

/-- The planner's precondition that the globally oldest revision of the
revision map heads the status plan (when the plan is nonempty). -/
def OldestHeadsStatus (r : List Revision) (status : List TrafficTarget) : Prop :=
  ∀ t rest2, status = t :: rest2 →
    ∃ orev, oldestRevision r = some orev ∧ t.revisionName = orev.name

/-- The planner's precondition that the status plan is ordered
oldest-to-newest (by the creation timestamps of the revisions its entries
resolve to). -/
def statusOrderedB (r : List Revision) : List TrafficTarget → Bool
  | [] => true
  | t :: rest =>
    rest.all (fun u =>
      match lookupRev r t.revisionName, lookupRev r u.revisionName with
      | some ra, some rb => decide (ra.creationTimestamp ≤ rb.creationTimestamp)
      | _, _ => true) && statusOrderedB r rest

/-- Spec §8 scenario policy `P`: `{mode: time, defaultThreshold: 60,
stages: [{10}, {50}, {90}]}`. -/
def scenarioPolicy : Policy := ⟨"time", [⟨10, none⟩, ⟨50, none⟩, ⟨90, none⟩], 60⟩

/-- Scenario revision `R1`, created at `T = −1000 s`. -/
def scenarioR1 : Revision := ⟨"R1", -1000 * nsPerSecond, "cfg"⟩

/-- Scenario revision `Rn`, created at `T = 0`. -/
def scenarioRn : Revision := ⟨"Rn", 0, "cfg"⟩

/-- Scenario revision map. -/
def scenarioRevs : List Revision := [scenarioR1, scenarioRn]

/-- Scenario route: status plan `[(R1, 100)]`, no spec plan yet. -/
def scenarioRoute : Route := ⟨"test", [], [⟨"R1", "", some false, some 100⟩]⟩

/-- The plan the planner actually emits in scenario 2. -/
def scenarioPlan : List TrafficTarget :=
  [⟨"R1", "", some false, some 50⟩, ⟨"Rn", "", some false, some 50⟩]

/-- The route the planner actually returns in scenario 2. -/
def scenarioResult : Route := ⟨"test", scenarioPlan, [⟨"R1", "", some false, some 100⟩]⟩

/-- Single revision used by the C5 witness. -/
def soloRev : Revision := ⟨"solo", 0, "cfg"⟩

/-- Route with no traffic yet, used by the C5 witness. -/
def emptyRoute : Route := ⟨"test", [], []⟩

/-- The singleton `latestRevision=true` plan the fast path emits. -/
def soloResult : Route := ⟨"test", [⟨"", "cfg", some true, some 100⟩], []⟩

/-- `true` exactly on the `Except.error` branch. -/
def isError {α : Type} (x : Except String α) : Bool :=
  match x with
  | .error _ => true
  | .ok _ => false

/-- Status plan referencing `X`, which is absent from the revision map. -/
def hideRoute : Route :=
  ⟨"test", [], [⟨"R1", "", some false, some 50⟩, ⟨"X", "", some false, some 50⟩]⟩

/-- Revision map without `X`; `N` is old enough to saturate 100%. -/
def hideRevs : List Revision :=
  [⟨"R1", -10000 * nsPerSecond, "cfg"⟩, ⟨"N", -9000 * nsPerSecond, "cfg"⟩]

/-- Policy A of policy_test.go. -/
def policyA : Policy :=
  ⟨"time", [⟨0, none⟩, ⟨1, none⟩, ⟨2, none⟩, ⟨3, none⟩, ⟨4, none⟩, ⟨5, none⟩,
            ⟨6, none⟩, ⟨7, none⟩, ⟨8, none⟩, ⟨99, none⟩], 5⟩

/-- A policy whose only stage has percent 0 — outside the claim's `[1,99]`
window, but accepted by the validator. -/
def zeroStagePolicy : Policy := ⟨"time", [⟨0, none⟩], 60⟩

/-- Policy with an out-of-bounds first stage used by the C8 witness. -/
def overPolicy : Policy := ⟨"time", [⟨150, none⟩], 60⟩

/-- The plan the claim expects for scenario 2 (which the code never
produces). -/
def scenarioClaimedPlan : List TrafficTarget :=
  [⟨"R1", "", some false, some 90⟩, ⟨"Rn", "", some false, some 10⟩]

/-- Policy D of policy_test.go (stages with their own thresholds). -/
def policyD : Policy :=
  ⟨"time", [⟨0, some 5⟩, ⟨4, some 10⟩, ⟨7, some 50⟩, ⟨10, none⟩], 100⟩

/-! ## Evaluator loop lemmas -/

theorem cumThreshold_eq (p : Policy) (k : Nat) :
    cumThreshold p k = cumList p p.stages.tail k := rfl

theorem cumList_cons (p : Policy) (s : Stage) (rest : List Stage) (k : Nat) :
    cumList p (s :: rest) (k + 1) = stageThreshold p s + cumList p rest k := by
  simp [cumList]

theorem cumList_succ (p : Policy) (l : List Stage) (k : Nat) (h : k < l.length) :
    cumList p l (k + 1) = cumList p l k + stageThreshold p (l.get ⟨k, h⟩) := by
  have hm : k < (l.map (stageThreshold p)).length := by simpa using h
  unfold cumList
  rw [List.map_take, List.map_take, List.sum_take_succ _ k hm]
  simp [List.get_eq_getElem]

theorem cumList_le_succ (p : Policy) (l : List Stage)
    (hpos : ∀ s ∈ l, 0 < stageThreshold p s) (k : Nat) :
    cumList p l k ≤ cumList p l (k + 1) := by
  by_cases h : k < l.length
  · rw [cumList_succ p l k h]
    have : 0 < stageThreshold p (l.get ⟨k, h⟩) := hpos _ (l.get_mem _ _)
    omega
  · unfold cumList
    rw [List.take_of_length_le (by omega), List.take_of_length_le (by omega)]

theorem cumList_mono (p : Policy) (l : List Stage)
    (hpos : ∀ s ∈ l, 0 < stageThreshold p s) :
    Monotone (fun k => cumList p l k) :=
  monotone_nat_of_le_succ (cumList_le_succ p l hpos)

theorem cnpeLoop_first_crossing (p : Policy) (e : Int) :
    ∀ (l : List Stage) (c : Int) (k : Nat) (hk : k < l.length),
      (∀ j, j < k → (c + cumList p l (j + 1)) * nsPerSecond ≤ e) →
      (c + cumList p l (k + 1)) * nsPerSecond > e →
      cnpeLoop p e c l = (l.get ⟨k, hk⟩).percent := by
  intro l
  induction l with
  | nil => intro c k hk; exact absurd hk (by simp)
  | cons s rest ih =>
    intro c k hk hprior hcross
    cases k with
    | zero =>
      rw [cumList_cons] at hcross
      simp only [cumList, List.take_zero, List.map_nil, List.sum_nil, add_zero] at hcross
      simp only [cnpeLoop]
      rw [if_pos hcross]
      rfl
    | succ k =>
      have h0 : (c + cumList p (s :: rest) 1) * nsPerSecond ≤ e := hprior 0 (Nat.succ_pos k)
      rw [cumList_cons] at h0
      simp only [cumList, List.take_zero, List.map_nil, List.sum_nil, add_zero] at h0
      simp only [cnpeLoop]
      rw [if_neg (not_lt.mpr h0)]
      have hk' : k < rest.length := by simpa using hk
      have := ih (c + stageThreshold p s) k hk'
        (fun j hj => by
          have := hprior (j + 1) (by omega)
          rw [cumList_cons] at this
          rw [← add_assoc] at this
          exact this)
        (by
          rw [cumList_cons] at hcross
          rw [← add_assoc] at hcross
          exact hcross)
      exact this

theorem cnpeLoop_no_crossing (p : Policy) (e : Int) :
    ∀ (l : List Stage) (c : Int),
      (∀ j, j < l.length → (c + cumList p l (j + 1)) * nsPerSecond ≤ e) →
      cnpeLoop p e c l = 100 := by
  intro l
  induction l with
  | nil => intro c _; rfl
  | cons s rest ih =>
    intro c hall
    have h0 : (c + cumList p (s :: rest) 1) * nsPerSecond ≤ e := hall 0 (by simp)
    rw [cumList_cons] at h0
    simp only [cumList, List.take_zero, List.map_nil, List.sum_nil, add_zero] at h0
    simp only [cnpeLoop]
    rw [if_neg (not_lt.mpr h0)]
    exact ih (c + stageThreshold p s) (fun j hj => by
      have := hall (j + 1) (by simpa using Nat.succ_lt_succ hj)
      rw [cumList_cons] at this
      rw [← add_assoc] at this
      exact this)

theorem cnpeLoop_mem (p : Policy) (e : Int) :
    ∀ (l : List Stage) (c : Int),
      cnpeLoop p e c l = 100 ∨ ∃ s ∈ l, cnpeLoop p e c l = s.percent := by
  intro l
  induction l with
  | nil => intro c; exact Or.inl rfl
  | cons s rest ih =>
    intro c
    simp only [cnpeLoop]
    by_cases h : (c + stageThreshold p s) * nsPerSecond > e
    · rw [if_pos h]
      exact Or.inr ⟨s, List.mem_cons_self s rest, rfl⟩
    · rw [if_neg h]
      rcases ih (c + stageThreshold p s) with h100 | ⟨t, ht, heq⟩
      · exact Or.inl h100
      · exact Or.inr ⟨t, List.mem_cons_of_mem s ht, heq⟩

theorem cnpeLoop_mono (p : Policy) (e1 e2 : Int) (hle : e1 ≤ e2) :
    ∀ (l : List Stage) (c : Int),
      l.Pairwise (fun a b => a.percent ≤ b.percent) →
      (∀ s ∈ l, s.percent ≤ 100) →
      cnpeLoop p e1 c l ≤ cnpeLoop p e2 c l := by
  intro l
  induction l with
  | nil => intro c _ _; exact le_refl _
  | cons s rest ih =>
    intro c hsorted hbound
    simp only [cnpeLoop]
    by_cases h2 : (c + stageThreshold p s) * nsPerSecond > e2
    · rw [if_pos h2, if_pos (by omega)]
    · rw [if_neg h2]
      by_cases h1 : (c + stageThreshold p s) * nsPerSecond > e1
      · rw [if_pos h1]
        rcases cnpeLoop_mem p e2 rest (c + stageThreshold p s) with h100 | ⟨t, ht, heq⟩
        · rw [h100]; exact hbound s (List.mem_cons_self s rest)
        · rw [heq]
          exact (List.pairwise_cons.mp hsorted).1 t ht
      · rw [if_neg h1]
        exact ih (c + stageThreshold p s) (List.pairwise_cons.mp hsorted).2
          (fun t ht => hbound t (List.mem_cons_of_mem s ht))

/-- With a valid policy the entitled percent is always at least 1 (it is
either 100 or one of the stage percents, all of which lie in `[1,99]`). -/
theorem computeNewPercentExplicit_ge_one (p : Policy) (hp : ValidPolicy p) (e : Int) :
    1 ≤ computeNewPercentExplicit p e := by
  unfold computeNewPercentExplicit
  by_cases h : p.stages = []
  · rw [if_pos h]; omega
  · rw [if_neg h]
    rcases cnpeLoop_mem p e p.stages.tail 0 with h100 | ⟨s, hs, heq⟩
    · omega
    · rw [heq]
      obtain ⟨s0, rest, hst⟩ := List.exists_cons_of_ne_nil h
      have hmem : s ∈ p.stages := by
        rw [hst] at hs ⊢
        exact List.mem_cons_of_mem s0 hs
      exact (hp.2.2.1 s hmem).1

theorem mtnsLoop_first_crossing (p : Policy) (e : Int) :
    ∀ (l : List Stage) (c : Int) (k : Nat), k < l.length →
      (∀ j, j < k → (c + cumList p l (j + 1)) * nsPerSecond ≤ e) →
      (c + cumList p l (k + 1)) * nsPerSecond > e →
      mtnsLoop p e c l = nextBiggerInt ((c + cumList p l (k + 1)) * nsPerSecond - e) := by
  intro l
  induction l with
  | nil => intro c k hk; exact absurd hk (by simp)
  | cons s rest ih =>
    intro c k hk hprior hcross
    cases k with
    | zero =>
      rw [cumList_cons] at hcross ⊢
      simp only [cumList, List.take_zero, List.map_nil, List.sum_nil, add_zero] at hcross ⊢
      simp only [mtnsLoop]
      rw [if_pos hcross]
    | succ k =>
      have h0 : (c + cumList p (s :: rest) 1) * nsPerSecond ≤ e := hprior 0 (Nat.succ_pos k)
      rw [cumList_cons] at h0
      simp only [cumList, List.take_zero, List.map_nil, List.sum_nil, add_zero] at h0
      simp only [mtnsLoop]
      rw [if_neg (not_lt.mpr h0)]
      have hk' : k < rest.length := by simpa using hk
      rw [cumList_cons, ← add_assoc]
      exact ih (c + stageThreshold p s) k hk'
        (fun j hj => by
          have := hprior (j + 1) (by omega)
          rw [cumList_cons] at this
          rw [← add_assoc] at this
          exact this)
        (by
          rw [cumList_cons] at hcross
          rw [← add_assoc] at hcross
          exact hcross)

theorem mtnsLoop_no_crossing (p : Policy) (e : Int) :
    ∀ (l : List Stage) (c : Int),
      (∀ j, j < l.length → (c + cumList p l (j + 1)) * nsPerSecond ≤ e) →
      mtnsLoop p e c l = maxInt32 := by
  intro l
  induction l with
  | nil => intro c _; rfl
  | cons s rest ih =>
    intro c hall
    have h0 : (c + cumList p (s :: rest) 1) * nsPerSecond ≤ e := hall 0 (by simp)
    rw [cumList_cons] at h0
    simp only [cumList, List.take_zero, List.map_nil, List.sum_nil, add_zero] at h0
    simp only [mtnsLoop]
    rw [if_neg (not_lt.mpr h0)]
    exact ih (c + stageThreshold p s) (fun j hj => by
      have := hall (j + 1) (by simpa using Nat.succ_lt_succ hj)
      rw [cumList_cons] at this
      rw [← add_assoc] at this
      exact this)

theorem nextBiggerInt_ge_one {q : Int} (hq : 0 < q) : 1 ≤ nextBiggerInt q := by
  unfold nextBiggerInt
  have : 0 ≤ q.fdiv nsPerSecond :=
    Int.fdiv_nonneg (le_of_lt hq) (by unfold nsPerSecond; omega)
  omega

theorem nextBiggerInt_gt (q : Int) : nextBiggerInt q * nsPerSecond > q := by
  unfold nextBiggerInt
  exact Int.lt_fdiv_add_one_mul_self q (by unfold nsPerSecond; omega)

theorem mtnsLoop_ge_one (p : Policy) (e : Int) :
    ∀ (l : List Stage) (c : Int), 1 ≤ mtnsLoop p e c l := by
  intro l
  induction l with
  | nil => intro c; unfold mtnsLoop maxInt32; omega
  | cons s rest ih =>
    intro c
    simp only [mtnsLoop]
    by_cases h : (c + stageThreshold p s) * nsPerSecond > e
    · rw [if_pos h]
      exact nextBiggerInt_ge_one (by omega)
    · rw [if_neg h]
      exact ih (c + stageThreshold p s)

theorem metricTillNextStage_ge_one (p : Policy) (e : Int) :
    1 ≤ metricTillNextStage p e := by
  unfold metricTillNextStage
  split
  · unfold maxInt32; omega
  · exact mtnsLoop_ge_one p e p.stages.tail 0

/-- No stage boundary lies strictly beyond the elapsed time, so the walk
falls through and returns `maxInt32`. -/
theorem metricTillNextStage_eq_max (p : Policy) (e : Int) (h : ¬ HasNextStage p e) :
    metricTillNextStage p e = maxInt32 := by
  unfold metricTillNextStage
  by_cases hnil : p.stages = []
  · rw [if_pos hnil]
  · rw [if_neg hnil]
    obtain ⟨s0, rest, hst⟩ := List.exists_cons_of_ne_nil hnil
    apply mtnsLoop_no_crossing
    intro j hj
    rw [zero_add]
    by_contra hgt
    exact h ⟨j, by
      constructor
      · rw [hst] at hj ⊢
        simpa using Nat.succ_lt_succ hj
      · rw [cumThreshold_eq]
        omega⟩

/-!
## Claim C2 — characterization of `computeNewPercentExplicit`

Empty stages give 100; otherwise the result is `stages[k].percent` for the
smallest `k ≥ 1` whose cumulative threshold strictly exceeds the elapsed
time (compared at nanosecond precision), and 100 when no such `k` exists.
-/

/-- C2: `computeNewPercentExplicit` returns 100 on empty stages; otherwise
`stages[k].percent` for the smallest `k ≥ 1` with `cum_k > elapsed`
(strictly, sub-second precise), and 100 when no threshold exceeds the
elapsed time. -/
theorem entitledPercent_characterization (p : Policy) (e : Int) :
    (p.stages = [] → computeNewPercentExplicit p e = 100) ∧
    (∀ (k : Nat) (hk : k + 1 < p.stages.length),
        cumThreshold p (k + 1) * nsPerSecond > e →
        (∀ j : Nat, 1 ≤ j → j < k + 1 → cumThreshold p j * nsPerSecond ≤ e) →
        computeNewPercentExplicit p e = (p.stages.get ⟨k + 1, hk⟩).percent) ∧
    (p.stages ≠ [] →
        (∀ k : Nat, 1 ≤ k → k < p.stages.length → cumThreshold p k * nsPerSecond ≤ e) →
        computeNewPercentExplicit p e = 100) := by
  refine ⟨?_, ?_, ?_⟩
  · intro h
    unfold computeNewPercentExplicit
    rw [if_pos h]
  · intro k hk hcross hprior
    have hne : p.stages ≠ [] := by
      intro hnil; rw [hnil] at hk; simp at hk
    obtain ⟨s0, rest, hst⟩ := List.exists_cons_of_ne_nil hne
    unfold computeNewPercentExplicit
    rw [if_neg hne]
    have htail : p.stages.tail = rest := by rw [hst]; rfl
    have hklen : k < rest.length := by
      rw [hst] at hk; simpa using hk
    have hres := cnpeLoop_first_crossing p e rest 0 k hklen
      (fun j hj => by
        have := hprior (j + 1) (by omega) (by omega)
        rw [cumThreshold_eq, htail] at this
        rw [zero_add]
        exact this)
      (by
        rw [cumThreshold_eq, htail] at hcross
        rw [zero_add]
        exact hcross)
    rw [htail, hres]
    have hcast := List.get_of_eq hst ⟨k + 1, hk⟩
    rw [hcast]
    simp [List.get_eq_getElem]
  · intro hne hall
    obtain ⟨s0, rest, hst⟩ := List.exists_cons_of_ne_nil hne
    unfold computeNewPercentExplicit
    rw [if_neg hne]
    have htail : p.stages.tail = rest := by rw [hst]; rfl
    rw [htail]
    apply cnpeLoop_no_crossing
    intro j hj
    have := hall (j + 1) (by omega) (by rw [hst]; simpa using Nat.succ_lt_succ hj)
    rw [cumThreshold_eq, htail] at this
    rw [zero_add]
    exact this

/-- C2 witness: policy A of policy_test.go at 17 s elapsed crosses at
`k = 4` and is entitled to 4 percent. -/
theorem entitledPercent_characterization_witness :
    computeNewPercentExplicit
      { mode := "time",
        stages := [⟨0, none⟩, ⟨1, none⟩, ⟨2, none⟩, ⟨3, none⟩, ⟨4, none⟩, ⟨5, none⟩,
                   ⟨6, none⟩, ⟨7, none⟩, ⟨8, none⟩, ⟨99, none⟩],
        defaultThreshold := 5 } (17 * 1000000000) = 4 := by
  have h := (entitledPercent_characterization
    { mode := "time",
      stages := [⟨0, none⟩, ⟨1, none⟩, ⟨2, none⟩, ⟨3, none⟩, ⟨4, none⟩, ⟨5, none⟩,
                 ⟨6, none⟩, ⟨7, none⟩, ⟨8, none⟩, ⟨99, none⟩],
      defaultThreshold := 5 } (17 * 1000000000)).2.1 3 (by decide) (by decide)
    (by intro j h1 h2; interval_cases j <;> decide)
  simpa using h

/-!
## Claim C4 — characterization of `metricTillNextStage`

At the first crossing the wait is `floor(cum_k - elapsed) + 1` seconds,
strictly larger than the exact remainder and at least 1; empty stages or no
crossing give `maxInt32`.  The "strictly greater than the real remainder
`cum_k − elapsed`" statement is written with the denominator cleared:
`result * nsPerSecond > cum_k * nsPerSecond − elapsedNs`.
-/

/-- C4: `metricTillNextStage` returns `maxInt32` on empty stages; at the
first crossing `k` it returns `⌊cum_k − elapsed⌋ + 1` seconds, strictly
greater than the exact remainder and at least 1; with no crossing it
returns `maxInt32`. -/
theorem metricTillNextStage_characterization (p : Policy) (e : Int) :
    (p.stages = [] → metricTillNextStage p e = maxInt32) ∧
    (∀ k : Nat, k + 1 < p.stages.length →
        cumThreshold p (k + 1) * nsPerSecond > e →
        (∀ j : Nat, 1 ≤ j → j < k + 1 → cumThreshold p j * nsPerSecond ≤ e) →
        metricTillNextStage p e =
          (cumThreshold p (k + 1) * nsPerSecond - e).fdiv nsPerSecond + 1 ∧
        metricTillNextStage p e * nsPerSecond > cumThreshold p (k + 1) * nsPerSecond - e ∧
        1 ≤ metricTillNextStage p e) ∧
    (p.stages ≠ [] →
        (∀ k : Nat, 1 ≤ k → k < p.stages.length → cumThreshold p k * nsPerSecond ≤ e) →
        metricTillNextStage p e = maxInt32) := by
  refine ⟨?_, ?_, ?_⟩
  · intro h
    unfold metricTillNextStage
    rw [if_pos h]
  · intro k hk hcross hprior
    have hne : p.stages ≠ [] := by
      intro hnil; rw [hnil] at hk; simp at hk
    obtain ⟨s0, rest, hst⟩ := List.exists_cons_of_ne_nil hne
    have htail : p.stages.tail = rest := by rw [hst]; rfl
    have hklen : k < rest.length := by
      rw [hst] at hk; simpa using hk
    have hres : metricTillNextStage p e
        = nextBiggerInt (cumThreshold p (k + 1) * nsPerSecond - e) := by
      unfold metricTillNextStage
      rw [if_neg hne, htail]
      have := mtnsLoop_first_crossing p e rest 0 k hklen
        (fun j hj => by
          have := hprior (j + 1) (by omega) (by omega)
          rw [cumThreshold_eq, htail] at this
          rw [zero_add]
          exact this)
        (by
          rw [cumThreshold_eq, htail] at hcross
          rw [zero_add]
          exact hcross)
      rw [this, cumThreshold_eq, htail, zero_add]
    refine ⟨hres, ?_, ?_⟩
    · rw [hres]
      exact nextBiggerInt_gt _
    · rw [hres]
      exact nextBiggerInt_ge_one (by omega)
  · intro hne hall
    obtain ⟨s0, rest, hst⟩ := List.exists_cons_of_ne_nil hne
    unfold metricTillNextStage
    rw [if_neg hne]
    have htail : p.stages.tail = rest := by rw [hst]; rfl
    rw [htail]
    apply mtnsLoop_no_crossing
    intro j hj
    have := hall (j + 1) (by omega) (by rw [hst]; simpa using Nat.succ_lt_succ hj)
    rw [cumThreshold_eq, htail] at this
    rw [zero_add]
    exact this

/-- C4 witness: policy A at 17 s elapsed waits 4 s (strictly more than the
exact 3 s remainder, and at least 1 s). -/
theorem metricTillNextStage_characterization_witness :
    metricTillNextStage
      { mode := "time",
        stages := [⟨0, none⟩, ⟨1, none⟩, ⟨2, none⟩, ⟨3, none⟩, ⟨4, none⟩, ⟨5, none⟩,
                   ⟨6, none⟩, ⟨7, none⟩, ⟨8, none⟩, ⟨99, none⟩],
        defaultThreshold := 5 } (17 * 1000000000) = 4 := by
  have h := ((metricTillNextStage_characterization
    { mode := "time",
      stages := [⟨0, none⟩, ⟨1, none⟩, ⟨2, none⟩, ⟨3, none⟩, ⟨4, none⟩, ⟨5, none⟩,
                 ⟨6, none⟩, ⟨7, none⟩, ⟨8, none⟩, ⟨99, none⟩],
      defaultThreshold := 5 } (17 * 1000000000)).2.1 3 (by decide) (by decide)
    (by intro j h1 h2; interval_cases j <;> decide)).1
  rw [h]
  decide

/-!
## Claim C6 — monotonicity of the entitled percent
-/

/-- C6: for a fixed valid policy the entitled percent is monotonically
non-decreasing in the elapsed time. -/
theorem entitledPercent_monotone (p : Policy) (hp : ValidPolicy p)
    (e1 e2 : Int) (h : e1 ≤ e2) :
    computeNewPercentExplicit p e1 ≤ computeNewPercentExplicit p e2 := by
  unfold computeNewPercentExplicit
  by_cases hnil : p.stages = []
  · rw [if_pos hnil, if_pos hnil]
  · rw [if_neg hnil, if_neg hnil]
    obtain ⟨s0, rest, hst⟩ := List.exists_cons_of_ne_nil hnil
    have htail : p.stages.tail = rest := by rw [hst]; rfl
    rw [htail]
    apply cnpeLoop_mono p e1 e2 h rest 0
    · have := hp.2.1
      rw [hst] at this
      exact (List.pairwise_cons.mp this).2
    · intro s hs
      have hmem : s ∈ p.stages := by
        rw [hst]; exact List.mem_cons_of_mem s0 hs
      have := (hp.2.2.1 s hmem).2
      omega

/-- C6 witness: monotone on a concrete valid policy and a concrete pair of
elapsed times. -/
theorem entitledPercent_monotone_witness :
    computeNewPercentExplicit
      { mode := "time", stages := [⟨10, none⟩, ⟨50, none⟩, ⟨90, none⟩],
        defaultThreshold := 60 } 0 ≤
    computeNewPercentExplicit
      { mode := "time", stages := [⟨10, none⟩, ⟨50, none⟩, ⟨90, none⟩],
        defaultThreshold := 60 } (75 * 1000000000) := by
  apply entitledPercent_monotone
  · refine ⟨by decide, ?_, by decide, ?_⟩
    · simp [List.pairwise_cons]
    · intro s hs t ht
      fin_cases hs <;> simp at ht
  · decide

/-!
## Claim C7 — boundary rule B2

An elapsed time exactly equal to a cumulative threshold counts as having
crossed it: the comparison is strict, so the evaluator returns the percent
of the following stage (or 100 when the boundary was the last one).  The
data-model invariants (positive default threshold, positive explicit
thresholds) are assumed, as the spec's §3 requires of every policy.
-/

theorem stageThreshold_pos (p : Policy) (hdt : 0 < p.defaultThreshold)
    (hthr : ∀ s ∈ p.stages, ∀ t, s.threshold = some t → 0 < t) :
    ∀ s ∈ p.stages, 0 < stageThreshold p s := by
  intro s hs
  unfold stageThreshold
  cases hth : s.threshold with
  | none => exact hdt
  | some t => exact hthr s hs t hth

/-- C7: at `elapsed = cum_k` (exactly), the entitled percent is that of the
stage after `k` — `stages[k+1].percent`, or 100 when `k` is the last stage
— because the evaluator's comparison against elapsed is strict. -/
theorem boundary_crossing (p : Policy)
    (hdt : 0 < p.defaultThreshold)
    (hthr : ∀ s ∈ p.stages, ∀ t, s.threshold = some t → 0 < t)
    (k : Nat) (hk1 : 1 ≤ k) (hk : k < p.stages.length) :
    computeNewPercentExplicit p (cumThreshold p k * nsPerSecond) =
      if h : k + 1 < p.stages.length then (p.stages.get ⟨k + 1, h⟩).percent else 100 := by
  have hne : p.stages ≠ [] := by
    intro hnil; rw [hnil] at hk; simp at hk
  obtain ⟨s0, rest, hst⟩ := List.exists_cons_of_ne_nil hne
  have htail : p.stages.tail = rest := by rw [hst]; rfl
  have hpos : ∀ s ∈ rest, 0 < stageThreshold p s := by
    intro s hs
    exact stageThreshold_pos p hdt hthr s (by rw [hst]; exact List.mem_cons_of_mem s0 hs)
  have hB : (0 : Int) < nsPerSecond := by unfold nsPerSecond; omega
  have hcumk : cumThreshold p k = cumList p rest k := by rw [cumThreshold_eq, htail]
  have hmono : ∀ i j : Nat, i ≤ j → cumList p rest i ≤ cumList p rest j :=
    fun i j hij => cumList_mono p rest hpos hij
  unfold computeNewPercentExplicit
  rw [if_neg hne, htail]
  split
  case isTrue h =>
    have hklen : k < rest.length := by rw [hst] at h; simpa using h
    have hres := cnpeLoop_first_crossing p (cumThreshold p k * nsPerSecond) rest 0 k hklen
      (fun j hj => by
        rw [zero_add, hcumk]
        exact mul_le_mul_of_nonneg_right (hmono (j + 1) k (by omega)) (le_of_lt hB))
      (by
        rw [zero_add, hcumk, cumList_succ p rest k hklen]
        have := hpos (rest.get ⟨k, hklen⟩) (rest.get_mem _ _)
        exact mul_lt_mul_of_pos_right (by omega) hB)
    rw [hres]
    have hcast := List.get_of_eq hst ⟨k + 1, h⟩
    rw [hcast]
    simp [List.get_eq_getElem]
  case isFalse h =>
    have hklen : rest.length ≤ k := by
      rw [hst] at hk h
      simp at hk h
      omega
    apply cnpeLoop_no_crossing
    intro j hj
    rw [zero_add, hcumk]
    exact mul_le_mul_of_nonneg_right (hmono (j + 1) k (by omega)) (le_of_lt hB)

/-- C7 witness: policy A of policy_test.go at the exact boundary
`cum_3 = 15 s` is entitled to the percent of stage 4. -/
theorem boundary_crossing_witness :
    computeNewPercentExplicit
      { mode := "time",
        stages := [⟨0, none⟩, ⟨1, none⟩, ⟨2, none⟩, ⟨3, none⟩, ⟨4, none⟩, ⟨5, none⟩,
                   ⟨6, none⟩, ⟨7, none⟩, ⟨8, none⟩, ⟨99, none⟩],
        defaultThreshold := 5 }
      (cumThreshold
        { mode := "time",
          stages := [⟨0, none⟩, ⟨1, none⟩, ⟨2, none⟩, ⟨3, none⟩, ⟨4, none⟩, ⟨5, none⟩,
                     ⟨6, none⟩, ⟨7, none⟩, ⟨8, none⟩, ⟨99, none⟩],
          defaultThreshold := 5 } 3 * nsPerSecond) = 4 := by
  have h := boundary_crossing
    { mode := "time",
      stages := [⟨0, none⟩, ⟨1, none⟩, ⟨2, none⟩, ⟨3, none⟩, ⟨4, none⟩, ⟨5, none⟩,
                 ⟨6, none⟩, ⟨7, none⟩, ⟨8, none⟩, ⟨99, none⟩],
      defaultThreshold := 5 }
    (by decide) (by intro s hs t ht; fin_cases hs <;> simp at ht) 3 (by decide) (by decide)
  rw [h, dif_pos (by decide)]
  decide

/-!
## Planner lemmas (claims C3, C5)
-/

theorem sumPercents_cons (t : TrafficTarget) (l : List TrafficTarget) :
    sumPercents (t :: l) = t.percent.getD 0 + sumPercents l := by
  simp [sumPercents]

theorem lookupRev_name {r : List Revision} {n : String} {rev : Revision}
    (h : lookupRev r n = some rev) : rev.name = n := by
  have := List.find?_some h
  simpa using this

/-- Invariant of the reverse walk: provided the walk's list ends at the
globally oldest revision's name (and reaches it only there), a successful
walk emits percents that sum with the accumulator to exactly 100, all of
them at least 1. -/
theorem walkLoop_sum_pos (r : List Revision) (p : Policy) (now : Int) (orev : Revision)
    (hp : ValidPolicy p) :
    ∀ (l₀ l : List String), l = l₀ ++ [orev.name] → orev.name ∉ l₀ →
    ∀ assigned : Int, 0 ≤ assigned → assigned < 100 →
    ∀ acc : List TrafficTarget, sumPercents acc = assigned →
      (∀ t ∈ acc, ∃ v, t.percent = some v ∧ 1 ≤ v) →
    ∀ res, walkLoop r p now (some orev.name) l assigned acc = .ok res →
      sumPercents res = 100 ∧ ∀ t ∈ res, ∃ v, t.percent = some v ∧ 1 ≤ v := by
  intro l₀
  induction l₀ with
  | nil =>
    intro l hl hnot assigned h0 h100 acc hsum hpos res hwalk
    subst hl
    rw [List.nil_append] at hwalk
    cases hlook : lookupRev r orev.name with
    | none => simp only [walkLoop, hlook] at hwalk; exact Except.noConfusion hwalk
    | some rev =>
      simp only [walkLoop, hlook] at hwalk
      have hname : rev.name = orev.name := lookupRev_name hlook
      rw [if_pos (by rw [hname])] at hwalk
      simp only [List.length_nil, List.replicate_zero, List.nil_append] at hwalk
      have hres : res = (⟨orev.name, "", some false, some (100 - assigned)⟩ : TrafficTarget)
          :: acc := (Except.ok.inj hwalk).symm
      subst hres
      constructor
      · rw [sumPercents_cons]
        simp only [Option.getD_some]
        omega
      · intro t ht
        rcases List.mem_cons.mp ht with hEq | hmem
        · exact ⟨100 - assigned, by rw [hEq], by omega⟩
        · exact hpos t hmem
  | cons name l₀x ih =>
    intro l hl hnot assigned h0 h100 acc hsum hpos res hwalk
    subst hl
    rw [List.cons_append] at hwalk
    cases hlook : lookupRev r name with
    | none => simp only [walkLoop, hlook] at hwalk; exact Except.noConfusion hwalk
    | some rev =>
      simp only [walkLoop, hlook] at hwalk
      have hname : rev.name = name := lookupRev_name hlook
      have hneq : orev.name ≠ name := fun hEq => hnot (hEq ▸ List.mem_cons_self name l₀x)
      rw [if_neg (by
        intro hEq
        exact hneq (by rw [← hname]; exact Option.some.inj hEq))] at hwalk
      have hwant : 1 ≤ computeNewPercentExplicit p (now - rev.creationTimestamp) :=
        computeNewPercentExplicit_ge_one p hp _
      have hactual1 : 1 ≤ min (computeNewPercentExplicit p (now - rev.creationTimestamp))
          (100 - assigned) := le_min hwant (by omega)
      have hactual2 : min (computeNewPercentExplicit p (now - rev.creationTimestamp))
          (100 - assigned) ≤ 100 - assigned := min_le_right _ _
      by_cases hsat : assigned + min (computeNewPercentExplicit p (now - rev.creationTimestamp))
          (100 - assigned) ≥ 100
      · rw [if_pos hsat] at hwalk
        have hres : res = (⟨name, "", some false,
            some (min (computeNewPercentExplicit p (now - rev.creationTimestamp))
              (100 - assigned))⟩ : TrafficTarget) :: acc := (Except.ok.inj hwalk).symm
        subst hres
        constructor
        · rw [sumPercents_cons]
          simp only [Option.getD_some]
          omega
        · intro t ht
          rcases List.mem_cons.mp ht with hEq | hmem
          · exact ⟨_, by rw [hEq], hactual1⟩
          · exact hpos t hmem
      · rw [if_neg hsat] at hwalk
        exact ih (l₀x ++ [orev.name]) rfl
          (fun hmem => hnot (List.mem_cons_of_mem name hmem))
          (assigned + min (computeNewPercentExplicit p (now - rev.creationTimestamp))
            (100 - assigned))
          (by omega) (by omega)
          ((⟨name, "", some false,
            some (min (computeNewPercentExplicit p (now - rev.creationTimestamp))
              (100 - assigned))⟩ : TrafficTarget) :: acc)
          (by rw [sumPercents_cons]; simp only [Option.getD_some]; omega)
          (fun t ht => by
            rcases List.mem_cons.mp ht with hEq | hmem
            · exact ⟨_, by rw [hEq], hactual1⟩
            · exact hpos t hmem)
          res hwalk

/-!
## Claim C3 — every successful plan sums to 100 with no zero entries
-/

/-- C3: under the planner's preconditions (valid policy, status plan with
positive percents, distinct entries ordered oldest-to-newest, and the
globally oldest revision heading the status plan), every successful
`modifyRouteSpec` call emits a plan whose percents sum to exactly 100 (P1)
and contain no zero (indeed no sub-1) entry (P2). -/
theorem planner_sum100_and_positive (route : Route) (r : List Revision) (newRevName : String)
    (p : Policy) (now : Int)
    (hp : ValidPolicy p)
    (hpos : ∀ t ∈ route.status, 0 < t.percent.getD 0)
    (hnodup : (route.status.map (fun t => t.revisionName)).Nodup)
    (hord : statusOrderedB r route.status = true)
    (hold : OldestHeadsStatus r route.status)
    (res : Route) (h : modifyRouteSpec route r newRevName p now = .ok res) :
    sumPercents res.spec = 100 ∧ ∀ t ∈ res.spec, ∃ v, t.percent = some v ∧ 1 ≤ v := by
  simp only [modifyRouteSpec] at h
  by_cases hlen : ((rosterOf route newRevName).length == 1) = true
  · rw [if_pos hlen] at h
    cases hlook : lookupRev r newRevName with
    | none => simp only [hlook] at h; exact Except.noConfusion h
    | some newRevision =>
      simp only [hlook] at h
      obtain rfl := Except.ok.inj h
      refine ⟨by simp [sumPercents], ?_⟩
      intro t ht
      simp only [List.mem_singleton] at ht
      exact ⟨100, by rw [ht], by omega⟩
  · rw [if_neg hlen] at h
    have hstatus_ne : route.status ≠ [] := by
      intro hnil
      exact hlen (by simp [rosterOf, hnil])
    obtain ⟨t0, st2, hst⟩ := List.exists_cons_of_ne_nil hstatus_ne
    obtain ⟨orev, hor, hhead⟩ := hold t0 st2 hst
    rw [hor] at h
    simp only [Option.map_some'] at h
    have hrev : (rosterOf route newRevName).reverse =
        ((if route.status.any (fun t => t.revisionName == newRevName) then ([] : List String)
          else [newRevName]).reverse ++ (st2.map (fun t => t.revisionName)).reverse)
          ++ [orev.name] := by
      rw [rosterOf, hst]
      rw [List.map_cons, hhead]
      rw [List.reverse_append, List.reverse_cons, List.append_assoc]
    have hnotmem : orev.name ∉
        (if route.status.any (fun t => t.revisionName == newRevName) then ([] : List String)
          else [newRevName]).reverse ++ (st2.map (fun t => t.revisionName)).reverse := by
      intro hmem
      rcases List.mem_append.mp hmem with hmem1 | hmem2
      · rw [List.mem_reverse] at hmem1
        by_cases hany : route.status.any (fun t => t.revisionName == newRevName) = true
        · rw [if_pos hany] at hmem1
          simp at hmem1
        · rw [if_neg hany] at hmem1
          simp only [List.mem_singleton] at hmem1
          rw [Bool.not_eq_true, List.any_eq_false] at hany
          have ht0 := hany t0 (by rw [hst]; exact List.mem_cons_self t0 st2)
          rw [hhead, hmem1] at ht0
          simp at ht0
      · rw [List.mem_reverse] at hmem2
        have hn := hnodup
        rw [hst, List.map_cons, List.nodup_cons] at hn
        exact hn.1 (by rw [hhead]; exact hmem2)
    rw [hrev] at h
    cases hwalk : walkLoop r p now (some orev.name)
        (((if route.status.any (fun t => t.revisionName == newRevName) then ([] : List String)
          else [newRevName]).reverse ++ (st2.map (fun t => t.revisionName)).reverse)
          ++ [orev.name]) 0 [] with
    | error msg => simp only [hwalk] at h; exact Except.noConfusion h
    | ok traffic =>
      simp only [hwalk] at h
      have hW := walkLoop_sum_pos r p now orev hp
        ((if route.status.any (fun t => t.revisionName == newRevName) then ([] : List String)
          else [newRevName]).reverse ++ (st2.map (fun t => t.revisionName)).reverse)
        _ rfl hnotmem 0 (le_refl 0) (by omega) [] (by simp [sumPercents]) (by simp)
        traffic hwalk
      by_cases hcol : (traffic.length == 1) = true
      · rw [if_pos hcol] at h
        obtain rfl := Except.ok.inj h
        refine ⟨by simp [sumPercents], ?_⟩
        intro t ht
        simp only [List.mem_singleton] at ht
        exact ⟨100, by rw [ht], by omega⟩
      · rw [if_neg hcol] at h
        obtain rfl := Except.ok.inj h
        exact hW

/-- C3 witness: the concrete scenario-2 inputs satisfy all preconditions
and the emitted plan `[(R1,50),(Rn,50)]` sums to 100. -/
theorem planner_sum100_and_positive_witness : sumPercents scenarioResult.spec = 100 :=
  (planner_sum100_and_positive scenarioRoute scenarioRevs "Rn" scenarioPolicy 0
    ⟨by decide, by simp [scenarioPolicy, List.pairwise_cons], by decide,
      by intro s hs t ht; fin_cases hs <;> simp at ht⟩
    (by decide) (by decide) (by decide)
    (by
      intro t rest2 hEq
      cases hEq
      exact ⟨scenarioR1, by decide, by decide⟩)
    scenarioResult (by decide)).1

/-!
## Claim C5 — a single-entry plan is always the `latestRevision=true` form
-/

/-- C5: whenever `modifyRouteSpec` succeeds with a single-entry plan, that
entry is the `latestRevision=true` form at percent 100 naming a
configuration (its revision name is empty) — both on the singleton-roster
fast path and after the post-walk collapse. -/
theorem singleton_plan_latestRevision (route : Route) (r : List Revision) (newRevName : String)
    (p : Policy) (now : Int) (res : Route)
    (h : modifyRouteSpec route r newRevName p now = .ok res) :
    ∀ t, res.spec = [t] →
      t.latestRevision = some true ∧ t.percent = some 100 ∧ t.revisionName = "" := by
  simp only [modifyRouteSpec] at h
  by_cases hlen : ((rosterOf route newRevName).length == 1) = true
  · rw [if_pos hlen] at h
    cases hlook : lookupRev r newRevName with
    | none => simp only [hlook] at h; exact Except.noConfusion h
    | some newRevision =>
      simp only [hlook] at h
      obtain rfl := Except.ok.inj h
      intro t ht
      simp only [List.cons.injEq, and_true] at ht
      rw [← ht]
      exact ⟨rfl, rfl, rfl⟩
  · rw [if_neg hlen] at h
    cases hwalk : walkLoop r p now ((oldestRevision r).map (fun x => x.name))
        (rosterOf route newRevName).reverse 0 [] with
    | error msg => simp only [hwalk] at h; exact Except.noConfusion h
    | ok traffic =>
      simp only [hwalk] at h
      by_cases hcol : (traffic.length == 1) = true
      · rw [if_pos hcol] at h
        obtain rfl := Except.ok.inj h
        intro t ht
        simp only [List.cons.injEq, and_true] at ht
        rw [← ht]
        exact ⟨rfl, rfl, rfl⟩
      · rw [if_neg hcol] at h
        obtain rfl := Except.ok.inj h
        intro t ht
        exfalso
        apply hcol
        have ht2 : traffic = [t] := ht
        rw [ht2]
        rfl

/-- C5 witness: the fast path on a single-revision roster produces the
`latestRevision=true` form at 100 naming the configuration. -/
theorem singleton_plan_latestRevision_witness :
    (⟨"", "cfg", some true, some 100⟩ : TrafficTarget).latestRevision = some true ∧
    (⟨"", "cfg", some true, some 100⟩ : TrafficTarget).percent = some 100 ∧
    (⟨"", "cfg", some true, some 100⟩ : TrafficTarget).revisionName = "" :=
  singleton_plan_latestRevision emptyRoute [soloRev] "solo" scenarioPolicy 0 soloResult
    (by decide) ⟨"", "cfg", some true, some 100⟩ (by decide)

/-!
## Follow-up computation lemmas (claims C9, C10)
-/

theorem ttneLoop_ge_one (r : List Revision) (p : Policy) (now : Int)
    (oldestName : Option String) :
    ∀ (l : List TrafficTarget) (result d : Int), 1 ≤ result →
      ttneLoop r p now oldestName l result = .ok d → 1 ≤ d := by
  intro l
  induction l with
  | nil =>
    intro result d hres h
    simp only [ttneLoop] at h
    rw [← Except.ok.inj h]
    exact hres
  | cons t rest ih =>
    intro result d hres h
    cases hlook : lookupRev r t.revisionName with
    | none => simp only [ttneLoop, hlook] at h; exact Except.noConfusion h
    | some rev =>
      simp only [ttneLoop, hlook] at h
      by_cases hold : oldestName = some rev.name
      · rw [if_pos hold] at h
        exact ih result d hres h
      · rw [if_neg hold] at h
        exact ih _ d (le_min (metricTillNextStage_ge_one p _) hres) h

theorem ttneLoop_max (r : List Revision) (p : Policy) (now : Int)
    (oldestName : Option String) :
    ∀ (l : List TrafficTarget) (d : Int),
      (∀ t ∈ l, ∀ rev, lookupRev r t.revisionName = some rev →
        oldestName ≠ some rev.name →
        metricTillNextStage p (now - rev.creationTimestamp) = maxInt32) →
      ttneLoop r p now oldestName l maxInt32 = .ok d → d = maxInt32 := by
  intro l
  induction l with
  | nil =>
    intro d _ h
    simp only [ttneLoop] at h
    exact (Except.ok.inj h).symm
  | cons t rest ih =>
    intro d hall h
    cases hlook : lookupRev r t.revisionName with
    | none => simp only [ttneLoop, hlook] at h; exact Except.noConfusion h
    | some rev =>
      simp only [ttneLoop, hlook] at h
      by_cases hold : oldestName = some rev.name
      · rw [if_pos hold] at h
        exact ih d (fun u hu => hall u (List.mem_cons_of_mem t hu)) h
      · rw [if_neg hold] at h
        rw [hall t (List.mem_cons_self t rest) rev hlook hold, min_self] at h
        exact ih d (fun u hu => hall u (List.mem_cons_of_mem t hu)) h

theorem ttneLoop_missing (r : List Revision) (p : Policy) (now : Int)
    (oldestName : Option String) :
    ∀ (l : List TrafficTarget) (result : Int),
      (∃ t ∈ l, lookupRev r t.revisionName = none) →
      ∃ msg, ttneLoop r p now oldestName l result = .error msg := by
  intro l
  induction l with
  | nil =>
    intro result hex
    obtain ⟨t, ht, _⟩ := hex
    exact absurd ht (List.not_mem_nil t)
  | cons t rest ih =>
    intro result hex
    cases hlook : lookupRev r t.revisionName with
    | none =>
      exact ⟨"cannot find Revision " ++ t.revisionName ++ " in indexer",
        by simp only [ttneLoop, hlook]⟩
    | some rev =>
      obtain ⟨u, hu, hunone⟩ := hex
      have hu2 : u ∈ rest := by
        rcases List.mem_cons.mp hu with hEq | hmem
        · rw [hEq] at hunone; rw [hunone] at hlook; exact Option.noConfusion hlook
        · exact hmem
      simp only [ttneLoop, hlook]
      by_cases hold : oldestName = some rev.name
      · rw [if_pos hold]
        exact ih result ⟨u, hu2, hunone⟩
      · rw [if_neg hold]
        exact ih _ ⟨u, hu2, hunone⟩

/-!
## Claim C10 — `timeTillNextEvent` never returns zero

A successful result is at least 1 second, is `maxInt32` on an empty plan or
when every non-oldest plan revision has no next stage, and therefore the
non-zero test in `applyChanges` always enqueues a follow-up whenever the
plan's first entry is not the `latestRevision=true` form.
-/

/-- C10: a successful `timeTillNextEvent` result is ≥ 1 second (never the
zero duration); it is `maxInt32` when the plan is empty or every non-oldest
plan revision has no next stage; consequently `applyChanges`' non-zero test
always enqueues a follow-up (`some d`) when the plan's first entry is not
`latestRevision=true`. -/
theorem timeTillNextEvent_positive (route : Route) (r : List Revision) (p : Policy)
    (now d : Int) (h : timeTillNextEvent route r p now = .ok d) :
    1 ≤ d ∧
    (route.spec = [] → d = maxInt32) ∧
    ((∀ t ∈ route.spec, ∀ rev, lookupRev r t.revisionName = some rev →
        (oldestRevision r).map (fun x => x.name) ≠ some rev.name →
        ¬ HasNextStage p (now - rev.creationTimestamp)) → d = maxInt32) ∧
    ((route.spec.headD zeroTarget).latestRevision = some false →
        applyChangesFollowup route r p now = .ok (some d)) := by
  have hd1 : 1 ≤ d := by
    apply ttneLoop_ge_one r p now ((oldestRevision r).map (fun x => x.name))
      route.spec maxInt32 d
    · unfold maxInt32; omega
    · exact h
  refine ⟨hd1, ?_, ?_, ?_⟩
  · intro hnil
    unfold timeTillNextEvent at h
    rw [hnil] at h
    simp only [ttneLoop] at h
    exact (Except.ok.inj h).symm
  · intro hall
    apply ttneLoop_max r p now ((oldestRevision r).map (fun x => x.name)) route.spec d
    · intro t ht rev hlook hne
      exact metricTillNextStage_eq_max p _ (hall t ht rev hlook hne)
    · exact h
  · intro hhead
    unfold applyChangesFollowup
    rw [hhead]
    simp only [Option.getD_some, if_false, Bool.false_eq_true]
    simp only [h]
    rw [if_pos (show d ≠ 0 by omega)]

/-- C10 witness: on the scenario-2 result plan the computation returns 61
seconds and the scheduler enqueues a follow-up. -/
theorem timeTillNextEvent_positive_witness :
    (1 : Int) ≤ 61 ∧
    applyChangesFollowup scenarioResult scenarioRevs scenarioPolicy 0 = .ok (some 61) := by
  have h := timeTillNextEvent_positive scenarioResult scenarioRevs scenarioPolicy 0 61
    (by decide)
  exact ⟨h.1, h.2.2.2 (by decide)⟩

/-!
## Claim C9 — missing referenced revisions

`timeTillNextEvent` always errors when a plan entry's revision is absent
from the revision map.  `modifyRouteSpec`, however, only errors when its
reverse walk actually reaches the missing name: a walk that stops earlier
(oldest-revision rule or 100% saturation) succeeds even though the status
plan references an absent revision — the claim as stated is therefore
false.  The walk always begins at the roster's newest (last) name, so a
missing newest entry always errors.
-/

theorem rosterOf_ne_nil (route : Route) (n : String) : rosterOf route n ≠ [] := by
  unfold rosterOf
  intro h
  obtain ⟨h1, h2⟩ := List.append_eq_nil.mp h
  have hstat : route.status = [] := List.map_eq_nil_iff.mp h1
  rw [hstat] at h2
  simp at h2

theorem modifyRouteSpec_missing_last (route : Route) (r : List Revision) (newRevName : String)
    (p : Policy) (now : Int)
    (hmiss : lookupRev r ((rosterOf route newRevName).getLastD "") = none) :
    ∃ msg, modifyRouteSpec route r newRevName p now = .error msg := by
  obtain ⟨L, b, hLb⟩ :=
    (List.eq_nil_or_concat' (rosterOf route newRevName)).resolve_left
      (rosterOf_ne_nil route newRevName)
  have hlast : (rosterOf route newRevName).getLastD "" = b := by
    rw [hLb]; exact List.getLastD_concat _ _ _
  rw [hlast] at hmiss
  simp only [modifyRouteSpec]
  by_cases hlen : ((rosterOf route newRevName).length == 1) = true
  · rw [if_pos hlen]
    have hnew : b = newRevName := by
      have hlen1 : (rosterOf route newRevName).length = 1 := by simpa using hlen
      rw [hLb, List.length_append, List.length_singleton] at hlen1
      have hL : L = [] := List.eq_nil_of_length_eq_zero (by omega)
      rw [hL, List.nil_append] at hLb
      unfold rosterOf at hLb
      by_cases hany : (route.status.any fun t => t.revisionName == newRevName) = true
      · rw [if_pos hany, List.append_nil] at hLb
        cases hstat : route.status with
        | nil => rw [hstat] at hLb; simp at hLb
        | cons t rest =>
          rw [hstat] at hLb
          simp only [List.map_cons, List.cons.injEq] at hLb
          have hrest : rest = [] := List.map_eq_nil_iff.mp hLb.2
          rw [hstat, hrest] at hany
          simp only [List.any_cons, List.any_nil, Bool.or_false] at hany
          rw [← hLb.1]
          exact eq_of_beq hany
      · rw [if_neg hany] at hLb
        cases hstat : route.status with
        | nil =>
          rw [hstat] at hLb
          simp only [List.map_nil, List.nil_append, List.cons.injEq, and_true] at hLb
          exact hLb.symm
        | cons t rest =>
          rw [hstat] at hLb
          simp only [List.map_cons, List.cons_append, List.cons.injEq] at hLb
          exact absurd (List.append_eq_nil.mp hLb.2).2 (by simp)
    rw [hnew] at hmiss
    rw [hmiss]
    exact ⟨_, rfl⟩
  · rw [if_neg hlen]
    have hrev : (rosterOf route newRevName).reverse = b :: L.reverse := by
      rw [hLb, List.reverse_append]
      rfl
    rw [hrev]
    simp only [walkLoop, hmiss]
    exact ⟨_, rfl⟩

/-- C9 amended: when a referenced revision is missing, `timeTillNextEvent`
always errors; `modifyRouteSpec` errors whenever the missing name is the
roster's newest entry (the first the reverse walk visits).  Both surface a
bare error value carrying no plan or delay. -/
theorem missing_revision_errors (route : Route) (r : List Revision) (newRevName : String)
    (p : Policy) (now : Int) :
    ((∃ t ∈ route.spec, lookupRev r t.revisionName = none) →
      ∃ msg, timeTillNextEvent route r p now = .error msg) ∧
    (lookupRev r ((rosterOf route newRevName).getLastD "") = none →
      ∃ msg, modifyRouteSpec route r newRevName p now = .error msg) := by
  constructor
  · intro hex
    exact ttneLoop_missing r p now ((oldestRevision r).map (fun x => x.name))
      route.spec maxInt32 hex
  · intro hmiss
    exact modifyRouteSpec_missing_last route r newRevName p now hmiss

/-- C9 counterexample: the status plan references the absent revision `X`,
yet `modifyRouteSpec` succeeds — the newest revision `N` saturates 100%
before the walk reaches `X`, so no error is returned. -/
theorem missing_revision_no_error :
    lookupRev hideRevs "X" = none ∧
    (hideRoute.status.map (fun t => t.revisionName)).contains "X" = true ∧
    modifyRouteSpec hideRoute hideRevs "N" policyA 0 =
      .ok ⟨"test", [⟨"", "test", some true, some 100⟩],
        [⟨"R1", "", some false, some 50⟩, ⟨"X", "", some false, some 50⟩]⟩ := by
  decide

/-- C9 witness: with an empty revision map both functions error. -/
theorem missing_revision_errors_witness :
    isError (timeTillNextEvent ⟨"t", [⟨"X", "", some false, some 100⟩], []⟩ [] policyA 0)
      = true ∧
    isError (modifyRouteSpec ⟨"t", [], [⟨"Y", "", some false, some 100⟩]⟩ [] "Z" policyA 0)
      = true := by
  constructor
  · obtain ⟨msg, hm⟩ := (missing_revision_errors
      ⟨"t", [⟨"X", "", some false, some 100⟩], []⟩ [] "Z" policyA 0).1
      ⟨⟨"X", "", some false, some 100⟩, by decide, by decide⟩
    rw [hm]
    rfl
  · obtain ⟨msg, hm⟩ := (missing_revision_errors
      ⟨"t", [], [⟨"Y", "", some false, some 100⟩]⟩ [] "Z" policyA 0).2 (by decide)
    rw [hm]
    rfl

/-!
## Claim C8 — validator percent bounds

The source validator checks `s.Percent < 0 || s.Percent >= 100` and reports
`ErrOutOfBoundsValue(s.Percent, 0, 99, ...)`: its window is `[0,99]`, not
the `[1,99]` the claim states — a stage percent of 0 is accepted.
-/

theorem validateStages_ne_nil :
    ∀ (l : List Stage) (prev : Int), 0 ≤ prev →
      (∃ s ∈ l, s.percent < 0 ∨ 100 ≤ s.percent) → validateStages l prev ≠ [] := by
  intro l
  induction l with
  | nil =>
    intro prev _ hex
    obtain ⟨s, hs, _⟩ := hex
    exact absurd hs (List.not_mem_nil s)
  | cons s rest ih =>
    intro prev hprev hex
    simp only [validateStages]
    by_cases h1 : s.percent < prev
    · rw [if_pos h1]; simp
    · rw [if_neg h1]
      by_cases h2 : s.percent < 0 ∨ s.percent ≥ 100
      · rw [if_pos h2]; simp
      · rw [if_neg h2]
        by_cases h3 : (s.threshold.any (fun t => decide (t ≤ 0))) = true
        · rw [if_pos h3]; simp
        · rw [if_neg h3]
          push_neg at h2
          apply ih s.percent (by omega)
          obtain ⟨u, hu, hbad⟩ := hex
          rcases List.mem_cons.mp hu with hEq | hmem
          · rw [hEq] at hbad; omega
          · exact ⟨u, hmem, hbad⟩

/-- C8 amended: the validator rejects any policy in which some stage
percent lies outside `[0,99]` (not `[1,99]`): a percent of 100 or more at
the head of the stage list is reported as a bounds error with the value
and the `[0,99]` window; negative percents are caught (by the
increasing-order check, which fires first); percent 0 is accepted. -/
theorem validator_rejects_out_of_bounds (p : Policy) :
    ((∃ s ∈ p.stages, s.percent < 0 ∨ 100 ≤ s.percent) → validatePolicy p ≠ []) ∧
    (∀ s rest2, p.stages = s :: rest2 → 100 ≤ s.percent →
      FieldError.outOfBounds s.percent 0 99 "spec.stages" ∈ validatePolicy p) := by
  constructor
  · intro hex
    simp only [validatePolicy]
    by_cases hnil : p.stages.length < 1
    · obtain ⟨s, hs, _⟩ := hex
      have hempty : p.stages = [] := List.length_eq_zero.mp (by omega)
      rw [hempty] at hs
      exact absurd hs (List.not_mem_nil s)
    · rw [if_neg hnil]
      intro hEq
      obtain ⟨_, hEq3⟩ := List.append_eq_nil.mp hEq
      exact validateStages_ne_nil p.stages 0 (le_refl 0) hex hEq3
  · intro s rest2 hst hge
    simp only [validatePolicy]
    rw [if_neg (by rw [hst]; simp)]
    apply List.mem_append.mpr
    right
    rw [hst]
    simp only [validateStages]
    rw [if_neg (show ¬(s.percent < 0) by omega), if_pos (Or.inr hge)]
    exact List.mem_singleton.mpr rfl

/-- C8 counterexample: `zeroStagePolicy` has a stage percent outside
`[1,99]`, yet the validator emits no error at all. -/
theorem validator_accepts_zero_percent :
    validatePolicy zeroStagePolicy = [] ∧
    zeroStagePolicy.stages.any (fun s => decide (s.percent < 1 ∨ 99 < s.percent)) = true := by
  decide

/-- C8 witness: a stage percent of 150 is rejected with the bounds error
reporting the value and the `[0,99]` window. -/
theorem validator_rejects_out_of_bounds_witness :
    validatePolicy overPolicy ≠ [] ∧
    FieldError.outOfBounds 150 0 99 "spec.stages" ∈ validatePolicy overPolicy := by
  constructor
  · exact (validator_rejects_out_of_bounds overPolicy).1
      ⟨⟨150, none⟩, by decide, Or.inr (by decide)⟩
  · exact (validator_rejects_out_of_bounds overPolicy).2 ⟨150, none⟩ [] rfl (by decide)

/-!
## Claim C1 — end-to-end scenario 2

The spec expects `[(R1,90),(Rn,10)]` with a 60 s follow-up.  The evaluator
iterates `Stages[1:]`, so at elapsed 0 the fresh revision is entitled to
`stages[1].percent = 50` (never `stages[0].percent = 10`), and
`metricTillNextStage` returns `int(60.0) + 1 = 61`, not 60.  The planner
therefore emits `[(R1,50),(Rn,50)]` and the follow-up is 61 s.
-/

/-- C1 counterexample: on the scenario-2 inputs the planner's actual output
is `[(R1,50),(Rn,50)]` — not the claimed `[(R1,90),(Rn,10)]` — and the
follow-up delay is 61 seconds, not 60. -/
theorem scenario2_claim_false :
    modifyRouteSpec scenarioRoute scenarioRevs "Rn" scenarioPolicy 0 = .ok scenarioResult ∧
    scenarioResult.spec ≠ scenarioClaimedPlan ∧
    timeTillNextEvent scenarioResult scenarioRevs scenarioPolicy 0 = .ok 61 ∧
    (61 : Int) ≠ 60 := by
  decide

/-- C1 amended: on the scenario-2 inputs (policy `{time, 60, [10,50,90]}`,
`R1` at `T=−1000 s`, `Rn` at `T=0`, status plan `[(R1,100)]`), a single
planner invocation emits `[(R1,50),(Rn,50)]` and the follow-up delay on
that state is exactly 61 seconds. -/
theorem scenario2_actual :
    modifyRouteSpec scenarioRoute scenarioRevs "Rn" scenarioPolicy 0 = .ok scenarioResult ∧
    scenarioResult.spec =
      [⟨"R1", "", some false, some 50⟩, ⟨"Rn", "", some false, some 50⟩] ∧
    timeTillNextEvent scenarioResult scenarioRevs scenarioPolicy 0 = .ok 61 := by
  decide

-- sanity checks against the repository's own unit tests (policy_test.go)
section SanityChecks

example : computeNewPercentExplicit policyA (17 * nsPerSecond) = 4 := by decide
example : computeNewPercentExplicit policyD (45 * nsPerSecond) = 7 := by decide
example : computeNewPercentExplicit policyA (25 * nsPerSecond) = 6 := by decide
example : computeNewPercentExplicit policyD (160 * nsPerSecond) = 100 := by decide
example : computeNewPercentExplicit { mode := "time", stages := [], defaultThreshold := 10 } 0
    = 100 := by decide
example : metricTillNextStage policyA (17 * nsPerSecond) = 4 := by decide
example : metricTillNextStage policyD (45 * nsPerSecond) = 16 := by decide
example : metricTillNextStage policyA (25 * nsPerSecond) = 6 := by decide
example : metricTillNextStage policyD (160 * nsPerSecond) = maxInt32 := by decide

end SanityChecks
